import Mathlib

/-!
Verification of the Black-Scholes pricing library (src/index.js).

The library is a handful of pure arithmetic functions over IEEE doubles.
We model them over the real numbers: `erf` is the Gauss error function
(the mathematical function computed by the mathjs `erf` import), and the
four functions of the module are transcribed literally, with JavaScript
default arguments passed explicitly (`normCdf x 0 1` is `normCdf(x)`).
The module's export statement is modelled by the list of exported names.
-/

open Real MeasureTheory Set Filter intervalIntegral

noncomputable section

/-- The Gauss error function, the mathematical function computed by the
mathjs `erf` used in src/index.js. -/
def erf (x : ℝ) : ℝ := 2 / Real.sqrt π * ∫ t in (0:ℝ)..x, Real.exp (-t ^ 2)

/-- `normCdf(x, mu = 0, sigma = 1)` from src/index.js:
`0.5 * (1 - erf((mu - x) / (Math.sqrt(2) * sigma)))`. -/
def normCdf (x mu sigma : ℝ) : ℝ :=
  0.5 * (1 - erf ((mu - x) / (Real.sqrt 2 * sigma)))

/-- `blackScholesCall(S, K, sigma, r, t, d = 0)` from src/index.js, with the
local constants `d1` and `d2` inlined. -/
def blackScholesCall (S K sigma r t d : ℝ) : ℝ :=
  S * Real.exp (-d * t) *
      normCdf ((Real.log (S / K) + (r - d + sigma ^ 2 / 2) * t) / (sigma * Real.sqrt t)) 0 1 -
    K * Real.exp (-r * t) *
      normCdf ((Real.log (S / K) + (r - d + sigma ^ 2 / 2) * t) / (sigma * Real.sqrt t) -
        sigma * Real.sqrt t) 0 1

/-- `blackScholesPut(S, K, sigma, r, t, d = 0)` from src/index.js, with the
local constants `d1` and `d2` inlined. -/
def blackScholesPut (S K sigma r t d : ℝ) : ℝ :=
  K * Real.exp (-r * t) *
      normCdf (-((Real.log (S / K) + (r - d + sigma ^ 2 / 2) * t) / (sigma * Real.sqrt t) -
        sigma * Real.sqrt t)) 0 1 -
    S * Real.exp (-d * t) *
      normCdf (-((Real.log (S / K) + (r - d + sigma ^ 2 / 2) * t) / (sigma * Real.sqrt t))) 0 1

/-- `blackScholesWarrantCall(S, K, sigma, r, t, q = 1)` from src/index.js, with
the local constants `d1` and `d2` inlined. -/
def blackScholesWarrantCall (S K sigma r t q : ℝ) : ℝ :=
  (S * normCdf ((Real.log (S / K) + (r + sigma ^ 2 / 2) * t) / (sigma * Real.sqrt t)) 0 1 -
      K * Real.exp (-r * t) *
        normCdf ((Real.log (S / K) + (r + sigma ^ 2 / 2) * t) / (sigma * Real.sqrt t) -
          sigma * Real.sqrt t) 0 1) / q

/-- Auxiliary growth function for the nonnegativity proof:
`(1 + erf u) * exp (u^2)`.  The call price compares two values of this
function, and its monotonicity is the heart of the bound. -/
def erfGrowth (u : ℝ) : ℝ := (1 + erf u) * Real.exp (u ^ 2)

end

/-- The names in the module's named export statement
`export { blackScholesCall, blackScholesPut, blackScholesWarrantCall }`. -/
def namedExports : List String :=
  ["blackScholesCall", "blackScholesPut", "blackScholesWarrantCall"]

/-- The module's default export, `export default blackScholesCall`. -/
def defaultExport : String := "blackScholesCall"

/-! Basic lemmas about `erf` and `normCdf`. -/

/-- The error function is odd. -/
theorem erf_neg (x : ℝ) : erf (-x) = -erf x := by
  unfold erf
  have h1 : (∫ t in (0:ℝ)..x, Real.exp (-(-t) ^ 2)) =
      ∫ t in (-x)..(-(0:ℝ)), Real.exp (-t ^ 2) :=
    intervalIntegral.integral_comp_neg (fun t => Real.exp (-t ^ 2))
  simp only [neg_sq, neg_zero] at h1
  rw [intervalIntegral.integral_symm 0 (-x)] at h1
  have h2 : (∫ t in (0:ℝ)..(-x), Real.exp (-t ^ 2)) =
      -∫ t in (0:ℝ)..x, Real.exp (-t ^ 2) := by linarith
  rw [h2]
  ring

/-- The standard-normal specialisation of `normCdf` in terms of `erf`. -/
theorem normCdf_std (x : ℝ) : normCdf x 0 1 = 0.5 * (1 + erf (x / Real.sqrt 2)) := by
  unfold normCdf
  have h : (0 - x) / (Real.sqrt 2 * 1) = -(x / Real.sqrt 2) := by ring
  rw [h, erf_neg]
  ring

/-- The standard normal CDF splits one into complementary halves. -/
theorem normCdf_add_normCdf_neg (x : ℝ) : normCdf x 0 1 + normCdf (-x) 0 1 = 1 := by
  rw [normCdf_std, normCdf_std]
  have h : -x / Real.sqrt 2 = -(x / Real.sqrt 2) := by ring
  rw [h, erf_neg]
  ring

/-! Theorems for the claims. -/

/-- Claim C1: `blackScholesCall S K sigma r t d` equals
`S * exp (-d*t) * Φ d1 - K * exp (-r*t) * Φ d2` where
`d1 = (log (S/K) + (r - d + sigma^2/2)*t) / (sigma * sqrt t)`,
`d2 = d1 - sigma * sqrt t`, and `Φ` is the standard normal CDF computed by
`normCdf` with its defaults `mu = 0`, `sigma = 1`. -/
theorem blackScholesCall_formula (S K sigma r t d : ℝ) :
    blackScholesCall S K sigma r t d =
      S * Real.exp (-d * t) *
          normCdf ((Real.log (S / K) + (r - d + sigma ^ 2 / 2) * t) /
            (sigma * Real.sqrt t)) 0 1 -
        K * Real.exp (-r * t) *
          normCdf ((Real.log (S / K) + (r - d + sigma ^ 2 / 2) * t) /
            (sigma * Real.sqrt t) - sigma * Real.sqrt t) 0 1 := rfl

/-- Claim C2: `blackScholesPut S K sigma r t d` equals
`K * exp (-r*t) * Φ (-d2) - S * exp (-d*t) * Φ (-d1)` where `d1` and `d2` are
given by exactly the same expressions as in `blackScholesCall`. -/
theorem blackScholesPut_formula (S K sigma r t d : ℝ) :
    blackScholesPut S K sigma r t d =
      K * Real.exp (-r * t) *
          normCdf (-((Real.log (S / K) + (r - d + sigma ^ 2 / 2) * t) /
            (sigma * Real.sqrt t) - sigma * Real.sqrt t)) 0 1 -
        S * Real.exp (-d * t) *
          normCdf (-((Real.log (S / K) + (r - d + sigma ^ 2 / 2) * t) /
            (sigma * Real.sqrt t))) 0 1 := rfl

/-- Claim C3: `blackScholesWarrantCall S K sigma r t q` equals
`(S * Φ d1 - K * exp (-r*t) * Φ d2) / q` with
`d1 = (log (S/K) + (r + sigma^2/2)*t) / (sigma * sqrt t)` and
`d2 = d1 - sigma * sqrt t`: no dividend discounting on the spot term, and the
whole payoff divided by the conversion ratio `q`. -/
theorem blackScholesWarrantCall_formula (S K sigma r t q : ℝ) :
    blackScholesWarrantCall S K sigma r t q =
      (S * normCdf ((Real.log (S / K) + (r + sigma ^ 2 / 2) * t) /
          (sigma * Real.sqrt t)) 0 1 -
        K * Real.exp (-r * t) *
          normCdf ((Real.log (S / K) + (r + sigma ^ 2 / 2) * t) /
            (sigma * Real.sqrt t) - sigma * Real.sqrt t) 0 1) / q := rfl

/-- Claim C4: put-call parity.  For positive spot, strike, volatility and term
the call price minus the put price is `S * exp (-d*t) - K * exp (-r*t)`. -/
theorem putCallParity (S K sigma r t d : ℝ) (hS : 0 < S) (hK : 0 < K)
    (hsigma : 0 < sigma) (ht : 0 < t) :
    blackScholesCall S K sigma r t d - blackScholesPut S K sigma r t d =
      S * Real.exp (-d * t) - K * Real.exp (-r * t) := by
  unfold blackScholesCall blackScholesPut
  have h1 := normCdf_add_normCdf_neg
    ((Real.log (S / K) + (r - d + sigma ^ 2 / 2) * t) / (sigma * Real.sqrt t))
  have h2 := normCdf_add_normCdf_neg
    ((Real.log (S / K) + (r - d + sigma ^ 2 / 2) * t) / (sigma * Real.sqrt t) -
      sigma * Real.sqrt t)
  linear_combination (S * Real.exp (-d * t)) * h1 - (K * Real.exp (-r * t)) * h2

/-- Witness for C4 at `S = K = sigma = t = 1`, `r = d = 0`. -/
theorem putCallParity_witness :
    blackScholesCall 1 1 1 0 1 0 - blackScholesPut 1 1 1 0 1 0 =
      1 * Real.exp (-0 * 1) - 1 * Real.exp (-0 * 1) :=
  putCallParity 1 1 1 0 1 0 one_pos one_pos one_pos one_pos

/-- Claim C5: with conversion ratio `q = 1` and dividend yield `d = 0` the
warrant formula reduces to the vanilla call. -/
theorem warrantCall_one_eq_call (S K sigma r t : ℝ) :
    blackScholesWarrantCall S K sigma r t 1 = blackScholesCall S K sigma r t 0 := by
  unfold blackScholesWarrantCall blackScholesCall
  norm_num

/-- Claim C8: symmetry of the standard normal CDF:
`normCdf x 0 1 = 1 - normCdf (-x) 0 1` for every real `x`. -/
theorem normCdf_symm (x : ℝ) : normCdf x 0 1 = 1 - normCdf (-x) 0 1 := by
  have h := normCdf_add_normCdf_neg x
  linarith

/-- Claim C10: negating the volatility negates `d1` and `d2`, turning the call
price into the negated put price. -/
theorem call_neg_sigma_eq_neg_put (S K sigma r t d : ℝ) (hS : 0 < S) (hK : 0 < K)
    (hsigma : 0 < sigma) (ht : 0 < t) :
    blackScholesCall S K (-sigma) r t d = -blackScholesPut S K sigma r t d := by
  unfold blackScholesCall blackScholesPut
  have e1 : (Real.log (S / K) + (r - d + (-sigma) ^ 2 / 2) * t) / (-sigma * Real.sqrt t) =
      -((Real.log (S / K) + (r - d + sigma ^ 2 / 2) * t) / (sigma * Real.sqrt t)) := by
    ring
  rw [e1]
  have e2 : -((Real.log (S / K) + (r - d + sigma ^ 2 / 2) * t) / (sigma * Real.sqrt t)) -
      -sigma * Real.sqrt t =
      -((Real.log (S / K) + (r - d + sigma ^ 2 / 2) * t) / (sigma * Real.sqrt t) -
        sigma * Real.sqrt t) := by
    ring
  rw [e2]
  ring

/-- Witness for C10 at `S = K = sigma = t = 1`, `r = d = 0`. -/
theorem call_neg_sigma_eq_neg_put_witness :
    blackScholesCall 1 1 (-1) 0 1 0 = -blackScholesPut 1 1 1 0 1 0 :=
  call_neg_sigma_eq_neg_put 1 1 1 0 1 0 one_pos one_pos one_pos one_pos

/-- Claim C9 counterexample: the module's export statement names neither
`normalCdf` nor `normCdf`, and the default export is not the CDF either, so
the CDF is not part of the public callable surface. -/
theorem normCdf_not_exported :
    "normalCdf" ∉ namedExports ∧ "normCdf" ∉ namedExports ∧
      defaultExport ≠ "normalCdf" ∧ defaultExport ≠ "normCdf" := by
  constructor
  · decide
  constructor
  · decide
  constructor
  · decide
  · decide

/-- Claim C9 (amended): the module exports exactly `blackScholesCall`,
`blackScholesPut` and `blackScholesWarrantCall` (default export
`blackScholesCall`); the CDF routine, named `normCdf`, stays internal, but it
does evaluate the Normal CDF at `x` through the identity
`0.5 * (1 - erf ((mu - x) / (sqrt 2 * sigma)))`. -/
theorem exports_and_normCdf_identity :
    namedExports = ["blackScholesCall", "blackScholesPut", "blackScholesWarrantCall"] ∧
      defaultExport = "blackScholesCall" ∧
      "normCdf" ∉ namedExports ∧
      ∀ x mu sigma : ℝ, normCdf x mu sigma =
        0.5 * (1 - erf ((mu - x) / (Real.sqrt 2 * sigma))) :=
  ⟨rfl, rfl, by decide, fun x mu sigma => rfl⟩

/-! Analysis lemmas for the nonnegativity of the call price (claim C6). -/

/-- The Gaussian integrand is integrable on the whole line. -/
theorem integrable_exp_neg_sq : Integrable fun t : ℝ => Real.exp (-t ^ 2) := by
  have h := integrable_exp_neg_mul_sq (one_pos : (0:ℝ) < 1)
  simpa using h

/-- The Gaussian integrand times the identity is integrable on the line. -/
theorem integrable_id_mul_exp_neg_sq : Integrable fun t : ℝ => t * Real.exp (-t ^ 2) := by
  have h := integrable_mul_exp_neg_mul_sq (one_pos : (0:ℝ) < 1)
  simpa using h

/-- The half-line Gaussian integral. -/
theorem integral_exp_neg_sq_Ioi_zero :
    ∫ t in Ioi (0:ℝ), Real.exp (-t ^ 2) = Real.sqrt π / 2 := by
  have h := integral_gaussian_Ioi 1
  simpa using h

/-- The interval Gaussian integral never exceeds the half-line integral. -/
theorem intervalIntegral_exp_neg_sq_le (x : ℝ) :
    (∫ t in (0:ℝ)..x, Real.exp (-t ^ 2)) ≤ Real.sqrt π / 2 := by
  rcases le_or_lt x 0 with hx | hx
  · have h0 : 0 ≤ ∫ t in x..(0:ℝ), Real.exp (-t ^ 2) :=
      intervalIntegral.integral_nonneg hx (fun t _ => (Real.exp_pos _).le)
    rw [intervalIntegral.integral_symm x 0]
    have hπ : (0:ℝ) ≤ Real.sqrt π / 2 := by positivity
    linarith
  · rw [intervalIntegral.integral_of_le hx.le, ← integral_exp_neg_sq_Ioi_zero]
    apply setIntegral_mono_set integrable_exp_neg_sq.integrableOn
    · exact ae_of_all _ (fun t => (Real.exp_pos _).le)
    · exact HasSubset.Subset.eventuallyLE Ioc_subset_Ioi_self

/-- The error function is at most one. -/
theorem erf_le_one (x : ℝ) : erf x ≤ 1 := by
  unfold erf
  have h := intervalIntegral_exp_neg_sq_le x
  have hπ : 0 < Real.sqrt π := Real.sqrt_pos.2 Real.pi_pos
  have h1 : 2 / Real.sqrt π * (∫ t in (0:ℝ)..x, Real.exp (-t ^ 2)) ≤
      2 / Real.sqrt π * (Real.sqrt π / 2) :=
    mul_le_mul_of_nonneg_left h (by positivity)
  have h2 : 2 / Real.sqrt π * (Real.sqrt π / 2) = 1 := by field_simp
  linarith

/-- The error function is at least minus one. -/
theorem neg_one_le_erf (x : ℝ) : -1 ≤ erf x := by
  have h := erf_le_one (-x)
  rw [erf_neg] at h
  linarith

/-- Complement representation of the error function on the positive axis. -/
theorem one_sub_erf_eq (y : ℝ) (hy : 0 < y) :
    1 - erf y = 2 / Real.sqrt π * ∫ t in Ioi y, Real.exp (-t ^ 2) := by
  have hsplit : (∫ t in Ioi (0:ℝ), Real.exp (-t ^ 2)) =
      (∫ t in Ioc (0:ℝ) y, Real.exp (-t ^ 2)) + ∫ t in Ioi y, Real.exp (-t ^ 2) := by
    rw [← setIntegral_union (Ioc_disjoint_Ioi le_rfl) measurableSet_Ioi
      integrable_exp_neg_sq.integrableOn integrable_exp_neg_sq.integrableOn,
      Ioc_union_Ioi_eq_Ioi hy.le]
  have h1 : (1:ℝ) = 2 / Real.sqrt π * ∫ t in Ioi (0:ℝ), Real.exp (-t ^ 2) := by
    rw [integral_exp_neg_sq_Ioi_zero]
    have hπ : 0 < Real.sqrt π := Real.sqrt_pos.2 Real.pi_pos
    field_simp
  rw [hsplit] at h1
  unfold erf
  rw [intervalIntegral.integral_of_le hy.le]
  linear_combination h1

/-- Closed form for the half-line integral of `t * exp (-t^2)`. -/
theorem integral_Ioi_id_mul_exp_neg_sq (y : ℝ) :
    ∫ t in Ioi y, t * Real.exp (-t ^ 2) = Real.exp (-y ^ 2) / 2 := by
  have hderiv : ∀ x ∈ Ici y, HasDerivAt (fun u : ℝ => -Real.exp (-u ^ 2) / 2)
      (x * Real.exp (-x ^ 2)) x := by
    intro x _
    have h1 : HasDerivAt (fun u : ℝ => -u ^ 2) (-(2 * x)) x := by
      simpa using (hasDerivAt_pow 2 x).neg
    have h3 := h1.exp.neg.div_const 2
    convert h3 using 1
    ring
  have hint : IntegrableOn (fun t : ℝ => t * Real.exp (-t ^ 2)) (Ioi y) :=
    integrable_id_mul_exp_neg_sq.integrableOn
  have htend : Tendsto (fun u : ℝ => -Real.exp (-u ^ 2) / 2) atTop (nhds 0) := by
    have h1 : Tendsto (fun u : ℝ => -u ^ 2) atTop atBot := by
      have h2 : Tendsto (fun u : ℝ => u ^ 2) atTop atTop := tendsto_pow_atTop two_ne_zero
      exact (tendsto_neg_atTop_atBot).comp h2
    have h3 : Tendsto (fun u : ℝ => Real.exp (-u ^ 2)) atTop (nhds 0) :=
      Real.tendsto_exp_atBot.comp h1
    simpa using (h3.neg).div_const 2
  have h := integral_Ioi_of_hasDerivAt_of_tendsto' hderiv hint htend
  rw [h]
  ring

/-- Mills-ratio style bound for the Gaussian tail. -/
theorem gaussian_tail_le (y : ℝ) (hy : 0 < y) :
    (∫ t in Ioi y, Real.exp (-t ^ 2)) ≤ Real.exp (-y ^ 2) / (2 * y) := by
  have hgint : IntegrableOn (fun t : ℝ => 1 / y * (t * Real.exp (-t ^ 2))) (Ioi y) :=
    (integrable_id_mul_exp_neg_sq.const_mul (1 / y)).integrableOn
  have hmono : (∫ t in Ioi y, Real.exp (-t ^ 2)) ≤
      ∫ t in Ioi y, 1 / y * (t * Real.exp (-t ^ 2)) := by
    apply setIntegral_mono_on integrable_exp_neg_sq.integrableOn hgint measurableSet_Ioi
    intro t ht
    have hty : y < t := ht
    have h1 : 1 ≤ t / y := (one_le_div hy).2 hty.le
    have h2 : 0 < Real.exp (-t ^ 2) := Real.exp_pos _
    have h3 : 1 / y * (t * Real.exp (-t ^ 2)) = (t / y) * Real.exp (-t ^ 2) := by ring
    rw [h3]
    nlinarith
  have hval : (∫ t in Ioi y, 1 / y * (t * Real.exp (-t ^ 2))) =
      1 / y * (Real.exp (-y ^ 2) / 2) := by
    rw [MeasureTheory.integral_mul_left, integral_Ioi_id_mul_exp_neg_sq]
  rw [hval] at hmono
  have h4 : 1 / y * (Real.exp (-y ^ 2) / 2) = Real.exp (-y ^ 2) / (2 * y) := by
    field_simp
    ring
  linarith [hmono, h4.symm.le, h4.le]

/-- The error function has the Gaussian density as derivative. -/
theorem hasDerivAt_erf (x : ℝ) :
    HasDerivAt erf (2 / Real.sqrt π * Real.exp (-x ^ 2)) x := by
  have hcont : Continuous fun t : ℝ => Real.exp (-t ^ 2) := by fun_prop
  have h := intervalIntegral.integral_hasDerivAt_right
    (hcont.intervalIntegrable 0 x) (hcont.stronglyMeasurableAtFilter _ _)
    hcont.continuousAt
  have h2 := h.const_mul (2 / Real.sqrt π)
  exact h2

/-- Derivative of the growth function. -/
theorem hasDerivAt_erfGrowth (u : ℝ) :
    HasDerivAt erfGrowth
      (2 / Real.sqrt π + (1 + erf u) * (Real.exp (u ^ 2) * (2 * u))) u := by
  have h1 : HasDerivAt (fun v : ℝ => 1 + erf v) (2 / Real.sqrt π * Real.exp (-u ^ 2)) u :=
    (hasDerivAt_erf u).const_add 1
  have h2 : HasDerivAt (fun v : ℝ => Real.exp (v ^ 2)) (Real.exp (u ^ 2) * (2 * u)) u := by
    simpa using (hasDerivAt_pow 2 u).exp
  have h3 := h1.mul h2
  have h4 : Real.exp (-u ^ 2) * Real.exp (u ^ 2) = 1 := by
    rw [← Real.exp_add]
    have h5 : -u ^ 2 + u ^ 2 = 0 := by ring
    rw [h5, Real.exp_zero]
  have h6 : 2 / Real.sqrt π * Real.exp (-u ^ 2) * Real.exp (u ^ 2) +
      (1 + erf u) * (Real.exp (u ^ 2) * (2 * u)) =
      2 / Real.sqrt π + (1 + erf u) * (Real.exp (u ^ 2) * (2 * u)) := by
    rw [mul_assoc, h4, mul_one]
  rw [← h6]
  exact h3

/-- The derivative of the growth function is nonnegative. -/
theorem erfGrowth_deriv_nonneg (u : ℝ) :
    0 ≤ 2 / Real.sqrt π + (1 + erf u) * (Real.exp (u ^ 2) * (2 * u)) := by
  have hπ : 0 < Real.sqrt π := Real.sqrt_pos.2 Real.pi_pos
  have hc : 0 < 2 / Real.sqrt π := by positivity
  rcases le_or_lt 0 u with hu | hu
  · have h1 : 0 ≤ 1 + erf u := by linarith [neg_one_le_erf u]
    have h2 : 0 ≤ Real.exp (u ^ 2) * (2 * u) := by positivity
    nlinarith
  · have hy : 0 < -u := by linarith
    have herfc := one_sub_erf_eq (-u) hy
    rw [show erf (-u) = -erf u from erf_neg u] at herfc
    have hmills := gaussian_tail_le (-u) hy
    rw [neg_sq] at hmills
    have hI : 0 ≤ ∫ t in Ioi (-u), Real.exp (-t ^ 2) :=
      setIntegral_nonneg measurableSet_Ioi (fun t _ => (Real.exp_pos _).le)
    have h2u : 0 < 2 * -u := by linarith
    have hstep : (∫ t in Ioi (-u), Real.exp (-t ^ 2)) * (2 * -u) ≤ Real.exp (-u ^ 2) := by
      have h5 := mul_le_mul_of_nonneg_right hmills h2u.le
      have h6 : Real.exp (-u ^ 2) / (2 * -u) * (2 * -u) = Real.exp (-u ^ 2) :=
        div_mul_cancel₀ _ h2u.ne'
      linarith [h5, h6.le, h6.symm.le]
    have hprod : Real.exp (-u ^ 2) * Real.exp (u ^ 2) = 1 := by
      rw [← Real.exp_add]
      have h5 : -u ^ 2 + u ^ 2 = 0 := by ring
      rw [h5, Real.exp_zero]
    have hP : (∫ t in Ioi (-u), Real.exp (-t ^ 2)) * (2 * -u) * Real.exp (u ^ 2) ≤ 1 := by
      have h7 := mul_le_mul_of_nonneg_right hstep (Real.exp_pos (u ^ 2)).le
      linarith [h7, hprod.le, hprod.symm.le]
    have h8 : 2 / Real.sqrt π *
        ((∫ t in Ioi (-u), Real.exp (-t ^ 2)) * (2 * -u) * Real.exp (u ^ 2)) ≤
        2 / Real.sqrt π * 1 :=
      mul_le_mul_of_nonneg_left hP hc.le
    have h9 : (1 + erf u) * (Real.exp (u ^ 2) * (2 * u)) =
        -(2 / Real.sqrt π *
          ((∫ t in Ioi (-u), Real.exp (-t ^ 2)) * (2 * -u) * Real.exp (u ^ 2))) := by
      rw [show (1 : ℝ) + erf u = 1 - -erf u by ring, herfc]
      ring
    rw [h9]
    linarith [h8]

/-- The growth function is monotone. -/
theorem erfGrowth_monotone : Monotone erfGrowth := by
  apply monotone_of_deriv_nonneg
  · exact fun u => (hasDerivAt_erfGrowth u).differentiableAt
  · intro u
    rw [(hasDerivAt_erfGrowth u).deriv]
    exact erfGrowth_deriv_nonneg u

/-- The standard normal CDF through the growth function. -/
theorem normCdf_eq_erfGrowth (x : ℝ) :
    normCdf x 0 1 = erfGrowth (x / Real.sqrt 2) * Real.exp (-x ^ 2 / 2) / 2 := by
  rw [normCdf_std]
  unfold erfGrowth
  have h1 : (x / Real.sqrt 2) ^ 2 = x ^ 2 / 2 := by
    rw [div_pow, Real.sq_sqrt (by norm_num : (0:ℝ) ≤ 2)]
  rw [h1]
  have h2 : Real.exp (x ^ 2 / 2) * Real.exp (-x ^ 2 / 2) = 1 := by
    rw [← Real.exp_add]
    have h3 : x ^ 2 / 2 + -x ^ 2 / 2 = 0 := by ring
    rw [h3, Real.exp_zero]
  linear_combination (-(1 + erf (x / Real.sqrt 2)) / 2) * h2

/-- Claim C6: for positive spot, strike, volatility and term the result of
`blackScholesCall` is a non-negative real, whatever the rate `r` and dividend
yield `d`. -/
theorem blackScholesCall_nonneg (S K sigma r t d : ℝ) (hS : 0 < S) (hK : 0 < K)
    (hsigma : 0 < sigma) (ht : 0 < t) :
    0 ≤ blackScholesCall S K sigma r t d := by
  unfold blackScholesCall
  set v := sigma * Real.sqrt t with hv_def
  have hv : 0 < v := mul_pos hsigma (Real.sqrt_pos.2 ht)
  set d1 := (Real.log (S / K) + (r - d + sigma ^ 2 / 2) * t) / v with hd1_def
  set d2 := d1 - v with hd2_def
  have hd1v : d1 * v = Real.log (S / K) + (r - d + sigma ^ 2 / 2) * t := by
    rw [hd1_def]
    exact div_mul_cancel₀ _ hv.ne'
  have hv2 : v ^ 2 = sigma ^ 2 * t := by
    rw [hv_def, mul_pow, Real.sq_sqrt ht.le]
  have hdiff : (d1 ^ 2 - d2 ^ 2) / 2 = Real.log (S / K) + (r - d) * t := by
    have h0 : (d1 ^ 2 - d2 ^ 2) / 2 = d1 * v - v ^ 2 / 2 := by
      rw [hd2_def]; ring
    rw [h0, hd1v, hv2]; ring
  have hSK : 0 < S / K := div_pos hS hK
  have hKr : K * Real.exp (-r * t) =
      S * Real.exp (-d * t) * Real.exp ((d2 ^ 2 - d1 ^ 2) / 2) := by
    have h1 : (d2 ^ 2 - d1 ^ 2) / 2 = -(Real.log (S / K) + (r - d) * t) := by
      rw [← hdiff]; ring
    rw [h1]
    have h2 : Real.exp (-(Real.log (S / K) + (r - d) * t)) =
        K / S * Real.exp (-(r - d) * t) := by
      rw [show -(Real.log (S / K) + (r - d) * t) =
        -Real.log (S / K) + -(r - d) * t by ring,
        Real.exp_add, Real.exp_neg, Real.exp_log hSK, inv_div]
    rw [h2]
    have h4 : S * Real.exp (-d * t) * (K / S * Real.exp (-(r - d) * t)) =
        K * (Real.exp (-d * t) * Real.exp (-(r - d) * t)) := by
      field_simp
      ring
    rw [h4]
    have h3 : Real.exp (-d * t) * Real.exp (-(r - d) * t) = Real.exp (-r * t) := by
      rw [← Real.exp_add]
      congr 1
      ring
    rw [h3]
  rw [normCdf_eq_erfGrowth d1, normCdf_eq_erfGrowth d2, hKr]
  have hle : d2 / Real.sqrt 2 ≤ d1 / Real.sqrt 2 := by
    apply (div_le_div_iff_of_pos_right (by positivity : (0:ℝ) < Real.sqrt 2)).2
    have hd2le : d2 = d1 - v := hd2_def
    linarith
  have hG : erfGrowth (d2 / Real.sqrt 2) ≤ erfGrowth (d1 / Real.sqrt 2) :=
    erfGrowth_monotone hle
  have hE : Real.exp ((d2 ^ 2 - d1 ^ 2) / 2) * Real.exp (-d2 ^ 2 / 2) =
      Real.exp (-d1 ^ 2 / 2) := by
    rw [← Real.exp_add]
    congr 1
    ring
  have hA : 0 ≤ S * Real.exp (-d * t) * Real.exp (-d1 ^ 2 / 2) / 2 := by positivity
  have h8 := mul_le_mul_of_nonneg_left hG hA
  have h9 : S * Real.exp (-d * t) * Real.exp ((d2 ^ 2 - d1 ^ 2) / 2) *
      (erfGrowth (d2 / Real.sqrt 2) * Real.exp (-d2 ^ 2 / 2) / 2) =
      S * Real.exp (-d * t) * Real.exp (-d1 ^ 2 / 2) / 2 *
        erfGrowth (d2 / Real.sqrt 2) := by
    rw [← hE]
    ring
  have h10 : S * Real.exp (-d * t) *
      (erfGrowth (d1 / Real.sqrt 2) * Real.exp (-d1 ^ 2 / 2) / 2) =
      S * Real.exp (-d * t) * Real.exp (-d1 ^ 2 / 2) / 2 *
        erfGrowth (d1 / Real.sqrt 2) := by
    ring
  rw [h9, h10]
  linarith

/-- Witness for C6 at `S = K = sigma = t = 1`, `r = d = 0`. -/
theorem blackScholesCall_nonneg_witness : 0 ≤ blackScholesCall 1 1 1 0 1 0 :=
  blackScholesCall_nonneg 1 1 1 0 1 0 one_pos one_pos one_pos one_pos
